import Mathlib

/-!
Verification of the 1-D tapered-rod FEM engine (src/folder/weird.py).

Floating-point numbers are modelled as real numbers, `np.exp` as `Real.exp`.
Matrices are `Matrix (Fin n) (Fin n) ℝ`; vectors are `Fin n → ℝ`.
The numpy slice-accumulation loop
  `for i in range(N): K[i:i+2, i:i+2] += k_local`
starting from the zero matrix adds independent increments, so its result is
the sum over `i < N` of the local stiffness block scattered to rows/columns
`{i, i+1}`; the assembly below is rendered as that sum.
`np.linalg.solve` is a library routine (not part of the repository); it is
modelled by its documented contract: it returns the solution of `K * u = f`
when `K` is invertible and raises `LinAlgError` (modelled as `none`)
otherwise.
-/

namespace TaperedRod

open Matrix

open scoped Classical

/-- Module-level constant `L = 1.0` (rod length). -/
noncomputable def L : ℝ := 1.0

/-- Module-level constant `E = 200e9` (Young's modulus). -/
noncomputable def E : ℝ := 200e9

/-- Module-level constant `F = 1000` (applied force). -/
noncomputable def F : ℝ := 1000

/-- Module-level constant `A0 = 0.01` (base area). -/
noncomputable def A0 : ℝ := 0.01

/-- Module-level constant `alpha_modified = 1` (taper rate). -/
noncomputable def alpha_modified : ℝ := 1

/-- Source `analytical_displacement_modified(x)`:
`(F / (E * A0 * alpha_modified)) * (1 - np.exp(-alpha_modified * x))`.
The module constants are passed explicitly so the function can be studied at
other parameter values (in particular taper rate 0). -/
noncomputable def analytical_displacement_modified (Fc Ec A0c alphac x : ℝ) : ℝ :=
  (Fc / (Ec * A0c * alphac)) * (1 - Real.exp (-alphac * x))

/-- Source `area_modified(x) = A0 * np.exp(alpha_modified * x)`. -/
noncomputable def area_modified (A0c alphac x : ℝ) : ℝ :=
  A0c * Real.exp (alphac * x)

/-- Source `local_stiffness_matrix(A_mid, dx) = (E * A_mid / dx) * [[1,-1],[-1,1]]`. -/
noncomputable def local_stiffness_matrix (Ec A_mid dx : ℝ) : Matrix (Fin 2) (Fin 2) ℝ :=
  (Ec * A_mid / dx) • !![1, -1; -1, 1]

/-- Element midpoint `x_mid = 0.5 * (x_i + x_ip1)` with `x_i = i*dx`,
`x_ip1 = (i+1)*dx`, `dx = L/N`, exactly as computed in the assembly loop. -/
noncomputable def xmid (LL : ℝ) (N i : ℕ) : ℝ :=
  0.5 * ((i : ℝ) * (LL / N) + ((i : ℝ) + 1) * (LL / N))

/-- The local stiffness block of element `i` scattered into the global
`(N+1) × (N+1)` matrix at rows/columns `{i, i+1}`: the increment that the
loop body `K[i:i+2, i:i+2] += k_local` adds. -/
noncomputable def elemScatter (Ec LL A0c alphac : ℝ) (N i : ℕ) :
    Matrix (Fin (N + 1)) (Fin (N + 1)) ℝ :=
  Matrix.of fun r c =>
    if h : (r.1 = i ∨ r.1 = i + 1) ∧ (c.1 = i ∨ c.1 = i + 1) then
      local_stiffness_matrix Ec (area_modified A0c alphac (xmid LL N i)) (LL / N)
        ⟨r.1 - i, by omega⟩ ⟨c.1 - i, by omega⟩
    else 0

/-- Source `assemble_global_stiffness_matrix(N)`: zero matrix accumulated
with every element's scattered local stiffness block. -/
noncomputable def assemble_global_stiffness_matrix (Ec LL A0c alphac : ℝ) (N : ℕ) :
    Matrix (Fin (N + 1)) (Fin (N + 1)) ℝ :=
  ∑ i ∈ Finset.range N, elemScatter Ec LL A0c alphac N i

/-- Source `apply_boundary_conditions(K, f)`: `K[0, 0] += 1e20`, `f` returned
unchanged. -/
noncomputable def apply_boundary_conditions {m : ℕ} (K : Matrix (Fin m) (Fin m) ℝ)
    (f : Fin m → ℝ) : Matrix (Fin m) (Fin m) ℝ × (Fin m → ℝ) :=
  (Matrix.of fun r c => if r.1 = 0 ∧ c.1 = 0 then K r c + 1e20 else K r c, f)

/-- Model of the library call `np.linalg.solve(K, f)` by its documented
contract: the solution of `K * u = f` for invertible `K`, and a raised
`LinAlgError` — modelled as `none` — when `K` is singular. -/
noncomputable def np_linalg_solve {m : ℕ} (K : Matrix (Fin m) (Fin m) ℝ)
    (f : Fin m → ℝ) : Option (Fin m → ℝ) :=
  if IsUnit K.det then some (K⁻¹ *ᵥ f) else none

/-- Source `f = np.zeros(N+1); f[-1] = F`: the force vector, zero except for
the applied force at the last node. -/
noncomputable def forceVec (Fc : ℝ) (N : ℕ) : Fin (N + 1) → ℝ :=
  fun r => if r.1 = N then Fc else 0

/-- Source `fem_displacement_modified(N)`: assemble, apply the boundary
condition, and solve. Returns `none` exactly when the solver raises. -/
noncomputable def fem_displacement_modified (Ec LL A0c alphac Fc : ℝ) (N : ℕ) :
    Option (Fin (N + 1) → ℝ) :=
  let K := assemble_global_stiffness_matrix Ec LL A0c alphac N
  let f := forceVec Fc N
  let Kf := apply_boundary_conditions K f
  np_linalg_solve Kf.1 Kf.2

/-- Source `stress(u, N, dx) = (E / dx) * (np.diff(u) / dx)`:
entry `i` is `(E / dx) * ((u[i+1] - u[i]) / dx)`. -/
noncomputable def stress (Ec : ℝ) (N : ℕ) (u : Fin (N + 1) → ℝ) (dx : ℝ) :
    Fin N → ℝ :=
  fun i => (Ec / dx) * ((u i.succ - u i.castSucc) / dx)

/-- Stiffness coefficient of element `i`: `E * area(x_mid) / dx`, the scalar
in front of the `[[1,-1],[-1,1]]` block. -/
noncomputable def kcoef (Ec LL A0c alphac : ℝ) (N i : ℕ) : ℝ :=
  Ec * area_modified A0c alphac (xmid LL N i) / (LL / N)

/-- Exact solution of the boundary-conditioned linear system: the penalty
spring carries the whole load, so node 0 sits at `F / 1e20`, and each element
`i` stretches by `F / kcoef i`. -/
noncomputable def uExactNat (Ec LL A0c alphac Fc : ℝ) (N j : ℕ) : ℝ :=
  Fc / 1e20 + ∑ i ∈ Finset.range j, Fc / kcoef Ec LL A0c alphac N i

/-- The exact solution as a nodal displacement field. -/
noncomputable def uExact (Ec LL A0c alphac Fc : ℝ) (N : ℕ) : Fin (N + 1) → ℝ :=
  fun j => uExactNat Ec LL A0c alphac Fc N j.1

/-- Read a nodal vector at a natural index, zero out of range. -/
noncomputable def vext {n : ℕ} (v : Fin n → ℝ) (j : ℕ) : ℝ :=
  if h : j < n then v ⟨j, h⟩ else 0

lemma kcoef_pos (Ec LL A0c alphac : ℝ) (N i : ℕ) (hE : 0 < Ec) (hL : 0 < LL)
    (hA : 0 < A0c) (hN : 1 ≤ N) : 0 < kcoef Ec LL A0c alphac N i := by
  have hNR : (0 : ℝ) < (N : ℝ) := by exact_mod_cast hN
  have hdx : (0 : ℝ) < LL / N := div_pos hL hNR
  exact div_pos (mul_pos hE (mul_pos hA (Real.exp_pos _))) hdx

/-- Entrywise description of the scattered local block of element `i`. -/
lemma elemScatter_apply (Ec LL A0c alphac : ℝ) (N i : ℕ) (r c : Fin (N + 1)) :
    elemScatter Ec LL A0c alphac N i r c =
      if r.1 = i then
        (if c.1 = i then kcoef Ec LL A0c alphac N i
         else if c.1 = i + 1 then -kcoef Ec LL A0c alphac N i else 0)
      else if r.1 = i + 1 then
        (if c.1 = i then -kcoef Ec LL A0c alphac N i
         else if c.1 = i + 1 then kcoef Ec LL A0c alphac N i else 0)
      else 0 := by
  unfold elemScatter local_stiffness_matrix kcoef
  simp only [Matrix.of_apply]
  split_ifs with h <;>
    simp_all [Matrix.smul_apply, Fin.mk_zero, Fin.mk_one] <;>
    omega

lemma sum_matrix_mulVec_apply {n : ℕ} (s : Finset ℕ) (M : ℕ → Matrix (Fin n) (Fin n) ℝ)
    (v : Fin n → ℝ) (r : Fin n) :
    ((∑ i ∈ s, M i) *ᵥ v) r = ∑ i ∈ s, (M i *ᵥ v) r := by
  simp only [Matrix.mulVec, Matrix.dotProduct, Matrix.sum_apply, Finset.sum_mul]
  rw [Finset.sum_comm]

/-- A sum over all indices of a function supported at two distinct points. -/
lemma two_point_sum {n : ℕ} (v : Fin (n + 1) → ℝ) (a b : ℝ) (p q : ℕ)
    (hp : p < n + 1) (hq : q < n + 1) (hpq : p ≠ q) :
    (∑ c : Fin (n + 1), (if c.1 = p then a else if c.1 = q then b else 0) * v c)
      = a * v ⟨p, hp⟩ + b * v ⟨q, hq⟩ := by
  have key : ∀ c : Fin (n + 1),
      (if c.1 = p then a else if c.1 = q then b else 0) * v c
        = (if c = ⟨p, hp⟩ then a * v c else 0) + (if c = ⟨q, hq⟩ then b * v c else 0) := by
    intro c
    by_cases h1 : c.1 = p
    · have h2 : ¬ c.1 = q := by omega
      simp [Fin.ext_iff, h1, h2, hpq]
    · by_cases h2 : c.1 = q
      · simp [Fin.ext_iff, h1, h2, hpq, Ne.symm hpq]
      · simp [Fin.ext_iff, h1, h2]
  rw [Finset.sum_congr rfl (fun c _ => key c), Finset.sum_add_distrib,
    Finset.sum_ite_eq' , Finset.sum_ite_eq']
  simp

/-- Row `r` of element `i`'s scattered block times a vector: element `i`
pulls on its two end nodes with force proportional to its elongation. -/
lemma elemScatter_mulVec (Ec LL A0c alphac : ℝ) (N i : ℕ) (hi : i < N)
    (v : Fin (N + 1) → ℝ) (r : Fin (N + 1)) :
    (elemScatter Ec LL A0c alphac N i *ᵥ v) r =
      if r.1 = i then
        kcoef Ec LL A0c alphac N i * (v ⟨i, by omega⟩ - v ⟨i + 1, by omega⟩)
      else if r.1 = i + 1 then
        kcoef Ec LL A0c alphac N i * (v ⟨i + 1, by omega⟩ - v ⟨i, by omega⟩)
      else 0 := by
  have hmv : (elemScatter Ec LL A0c alphac N i *ᵥ v) r
      = ∑ c : Fin (N + 1), elemScatter Ec LL A0c alphac N i r c * v c := rfl
  rw [hmv]
  by_cases hr : r.1 = i
  · rw [if_pos hr]
    rw [Finset.sum_congr rfl (fun c _ => by rw [elemScatter_apply, if_pos hr])]
    rw [two_point_sum v _ _ i (i + 1) (by omega) (by omega) (by omega)]
    ring
  · rw [if_neg hr]
    by_cases hr2 : r.1 = i + 1
    · rw [if_pos hr2]
      rw [Finset.sum_congr rfl (fun c _ => by rw [elemScatter_apply, if_neg hr, if_pos hr2])]
      rw [two_point_sum v _ _ i (i + 1) (by omega) (by omega) (by omega)]
      ring
    · rw [if_neg hr2]
      rw [Finset.sum_congr rfl (fun c _ => by rw [elemScatter_apply, if_neg hr, if_neg hr2])]
      simp



lemma vext_eq {n : ℕ} (v : Fin n → ℝ) (j : ℕ) (h : j < n) :
    vext v j = v ⟨j, h⟩ := dif_pos h

lemma elemScatter_mulVec_vext (Ec LL A0c alphac : ℝ) (N i : ℕ) (hi : i < N)
    (v : Fin (N + 1) → ℝ) (r : Fin (N + 1)) :
    (elemScatter Ec LL A0c alphac N i *ᵥ v) r =
      if r.1 = i then
        kcoef Ec LL A0c alphac N i * (vext v i - vext v (i + 1))
      else if r.1 = i + 1 then
        kcoef Ec LL A0c alphac N i * (vext v (i + 1) - vext v i)
      else 0 := by
  rw [elemScatter_mulVec Ec LL A0c alphac N i hi v r,
    vext_eq v i (by omega), vext_eq v (i + 1) (by omega)]

/-- Row `r` of the assembled global stiffness matrix times a vector:
internal equilibrium form of the tridiagonal system. -/
lemma assemble_mulVec_apply (Ec LL A0c alphac : ℝ) (N : ℕ) (hN : 1 ≤ N)
    (v : Fin (N + 1) → ℝ) (r : Fin (N + 1)) :
    (assemble_global_stiffness_matrix Ec LL A0c alphac N *ᵥ v) r =
      if r.1 = 0 then
        kcoef Ec LL A0c alphac N 0 * (vext v 0 - vext v 1)
      else if r.1 = N then
        kcoef Ec LL A0c alphac N (N - 1) * (vext v N - vext v (N - 1))
      else
        kcoef Ec LL A0c alphac N (r.1 - 1) * (vext v r.1 - vext v (r.1 - 1))
          + kcoef Ec LL A0c alphac N r.1 * (vext v r.1 - vext v (r.1 + 1)) := by
  rw [assemble_global_stiffness_matrix, sum_matrix_mulVec_apply]
  rw [Finset.sum_congr rfl
    (fun i hi => elemScatter_mulVec_vext Ec LL A0c alphac N i (Finset.mem_range.mp hi) v r)]
  have hrle : r.1 < N + 1 := r.2
  by_cases hr0 : r.1 = 0
  · have step : ∀ i ∈ Finset.range N,
        (if r.1 = i then
          kcoef Ec LL A0c alphac N i * (vext v i - vext v (i + 1))
        else if r.1 = i + 1 then
          kcoef Ec LL A0c alphac N i * (vext v (i + 1) - vext v i)
        else 0) =
        (if i = 0 then kcoef Ec LL A0c alphac N i * (vext v i - vext v (i + 1)) else 0) := by
      intro i hi
      by_cases h0 : i = 0
      · subst h0
        rw [if_pos hr0, if_pos rfl]
      · rw [if_neg (by omega), if_neg (by omega), if_neg h0]
    rw [Finset.sum_congr rfl step, Finset.sum_ite_eq' (Finset.range N) 0
      (fun i => kcoef Ec LL A0c alphac N i * (vext v i - vext v (i + 1)))]
    rw [if_pos (Finset.mem_range.mpr (by omega)), if_pos hr0]
  · by_cases hrN : r.1 = N
    · have step : ∀ i ∈ Finset.range N,
          (if r.1 = i then
            kcoef Ec LL A0c alphac N i * (vext v i - vext v (i + 1))
          else if r.1 = i + 1 then
            kcoef Ec LL A0c alphac N i * (vext v (i + 1) - vext v i)
          else 0) =
          (if i = N - 1 then
            kcoef Ec LL A0c alphac N i * (vext v (i + 1) - vext v i) else 0) := by
        intro i hi
        have hiN : i < N := Finset.mem_range.mp hi
        by_cases h0 : i = N - 1
        · subst h0
          rw [if_neg (by omega), if_pos (by omega), if_pos rfl]
        · rw [if_neg (by omega), if_neg (by omega), if_neg h0]
      rw [Finset.sum_congr rfl step, Finset.sum_ite_eq' (Finset.range N) (N - 1)
        (fun i => kcoef Ec LL A0c alphac N i * (vext v (i + 1) - vext v i))]
      have e1 : N - 1 + 1 = N := by omega
      rw [if_pos (Finset.mem_range.mpr (by omega)), e1, if_neg hr0, if_pos hrN]
    · have hmid : 0 < r.1 ∧ r.1 < N := by omega
      have step : ∀ i ∈ Finset.range N,
          (if r.1 = i then
            kcoef Ec LL A0c alphac N i * (vext v i - vext v (i + 1))
          else if r.1 = i + 1 then
            kcoef Ec LL A0c alphac N i * (vext v (i + 1) - vext v i)
          else 0) =
          (if i = r.1 then
            kcoef Ec LL A0c alphac N i * (vext v i - vext v (i + 1)) else 0)
          + (if i = r.1 - 1 then
            kcoef Ec LL A0c alphac N i * (vext v (i + 1) - vext v i) else 0) := by
        intro i hi
        have hiN : i < N := Finset.mem_range.mp hi
        by_cases h0 : i = r.1
        · subst h0
          rw [if_pos rfl, if_pos rfl, if_neg (by omega), add_zero]
        · by_cases h1 : i = r.1 - 1
          · subst h1
            rw [if_neg (by omega), if_pos (by omega), if_neg (by omega), if_pos rfl, zero_add]
          · rw [if_neg (by omega), if_neg (by omega), if_neg h0, if_neg h1, add_zero]
      rw [Finset.sum_congr rfl step, Finset.sum_add_distrib,
        Finset.sum_ite_eq' (Finset.range N) r.1
          (fun i => kcoef Ec LL A0c alphac N i * (vext v i - vext v (i + 1))),
        Finset.sum_ite_eq' (Finset.range N) (r.1 - 1)
          (fun i => kcoef Ec LL A0c alphac N i * (vext v (i + 1) - vext v i))]
      have e1 : r.1 - 1 + 1 = r.1 := by omega
      rw [if_pos (Finset.mem_range.mpr (by omega)), if_pos (Finset.mem_range.mpr (by omega)),
        e1, if_neg hr0, if_neg hrN, add_comm]



/-- Effect of the penalty boundary condition on a matrix-vector product:
only row 0 changes, by the penalty times the fixed node's value. -/
lemma bc_mulVec_apply {n : ℕ} (K : Matrix (Fin (n + 1)) (Fin (n + 1)) ℝ)
    (f : Fin (n + 1) → ℝ) (v : Fin (n + 1) → ℝ) (r : Fin (n + 1)) :
    ((apply_boundary_conditions K f).1 *ᵥ v) r =
      (K *ᵥ v) r + (if r.1 = 0 then 1e20 * vext v 0 else 0) := by
  have hmv : ∀ M : Matrix (Fin (n + 1)) (Fin (n + 1)) ℝ,
      (M *ᵥ v) r = ∑ c : Fin (n + 1), M r c * v c := fun M => rfl
  rw [hmv, hmv]
  have step : ∀ c : Fin (n + 1),
      (apply_boundary_conditions K f).1 r c * v c =
        K r c * v c + (if r.1 = 0 then (if c = 0 then 1e20 * v c else 0) else 0) := by
    intro c
    simp only [apply_boundary_conditions, Matrix.of_apply]
    by_cases hr : r.1 = 0
    · by_cases hc : c.1 = 0
      · rw [if_pos ⟨hr, hc⟩, if_pos hr, if_pos (Fin.ext hc)]
        ring
      · rw [if_neg (by tauto), if_pos hr, if_neg (fun h => hc (by rw [h] ; rfl))]
        ring
    · rw [if_neg (by tauto), if_neg hr]
      ring
  rw [Finset.sum_congr rfl (fun c _ => step c), Finset.sum_add_distrib]
  by_cases hr : r.1 = 0
  · simp only [if_pos hr]
    rw [Finset.sum_ite_eq' Finset.univ (0 : Fin (n + 1)) (fun c => 1e20 * v c)]
    rw [if_pos (Finset.mem_univ _), vext_eq v 0 (by omega)]
    rfl
  · simp only [if_neg hr]
    rw [Finset.sum_const_zero]

/-- The elongation of element `i` under the exact solution is `F / kcoef i`. -/
lemma uExact_diff (Ec LL A0c alphac Fc : ℝ) (N i : ℕ) (hi : i < N) :
    vext (uExact Ec LL A0c alphac Fc N) (i + 1) - vext (uExact Ec LL A0c alphac Fc N) i
      = Fc / kcoef Ec LL A0c alphac N i := by
  rw [vext_eq _ (i + 1) (by omega), vext_eq _ i (by omega)]
  show uExactNat Ec LL A0c alphac Fc N (i + 1) - uExactNat Ec LL A0c alphac Fc N i = _
  unfold uExactNat
  rw [Finset.sum_range_succ]
  ring

lemma uExact_zero (Ec LL A0c alphac Fc : ℝ) (N : ℕ) :
    vext (uExact Ec LL A0c alphac Fc N) 0 = Fc / 1e20 := by
  rw [vext_eq _ 0 (by omega)]
  show uExactNat Ec LL A0c alphac Fc N 0 = _
  unfold uExactNat
  rw [Finset.sum_range_zero, add_zero]

/-- The exact solution satisfies the boundary-conditioned linear system. -/
lemma bc_system_solved (Ec LL A0c alphac Fc : ℝ) (N : ℕ) (hE : 0 < Ec) (hL : 0 < LL)
    (hA : 0 < A0c) (hN : 1 ≤ N) :
    (apply_boundary_conditions (assemble_global_stiffness_matrix Ec LL A0c alphac N)
        (forceVec Fc N)).1 *ᵥ uExact Ec LL A0c alphac Fc N = forceVec Fc N := by
  funext r
  have hk : ∀ i, kcoef Ec LL A0c alphac N i ≠ 0 :=
    fun i => ne_of_gt (kcoef_pos Ec LL A0c alphac N i hE hL hA hN)
  have hdiff : ∀ i, i < N →
      kcoef Ec LL A0c alphac N i *
        (vext (uExact Ec LL A0c alphac Fc N) (i + 1)
          - vext (uExact Ec LL A0c alphac Fc N) i) = Fc := by
    intro i hi
    rw [uExact_diff Ec LL A0c alphac Fc N i hi, mul_div_cancel₀ Fc (hk i)]
  rw [bc_mulVec_apply, assemble_mulVec_apply Ec LL A0c alphac N hN]
  have hrle : r.1 < N + 1 := r.2
  by_cases hr0 : r.1 = 0
  · rw [if_pos hr0, if_pos hr0]
    have hd := hdiff 0 (by omega)
    have hz := uExact_zero Ec LL A0c alphac Fc N
    have hfr : forceVec Fc N r = 0 := by
      unfold forceVec
      rw [if_neg (by omega)]
    rw [hfr]
    linear_combination (-1 : ℝ) * hd + (1e20 : ℝ) * hz
  · by_cases hrN : r.1 = N
    · rw [if_neg hr0, if_pos hrN, if_neg hr0, add_zero]
      have h1 : N - 1 + 1 = N := by omega
      have h2 := hdiff (N - 1) (by omega)
      rw [h1] at h2
      have hfr : forceVec Fc N r = Fc := by
        unfold forceVec
        rw [if_pos hrN]
      rw [hfr]
      linear_combination h2
    · rw [if_neg hr0, if_neg hrN, if_neg hr0, add_zero]
      have h1 : r.1 - 1 + 1 = r.1 := by omega
      have h2 := hdiff (r.1 - 1) (by omega)
      rw [h1] at h2
      have h3 := hdiff r.1 (by omega)
      have hfr : forceVec Fc N r = 0 := by
        unfold forceVec
        rw [if_neg (by omega)]
      rw [hfr]
      linear_combination h2 - h3



/-- The boundary-conditioned stiffness matrix has a trivial kernel: the
penalty pins node 0 and each element's stiffness pins the next node. -/
lemma bc_kernel_trivial (Ec LL A0c alphac Fc : ℝ) (N : ℕ) (hE : 0 < Ec) (hL : 0 < LL)
    (hA : 0 < A0c) (hN : 1 ≤ N) (v : Fin (N + 1) → ℝ)
    (hv : (apply_boundary_conditions (assemble_global_stiffness_matrix Ec LL A0c alphac N)
      (forceVec Fc N)).1 *ᵥ v = 0) : v = 0 := by
  have hk : ∀ i, kcoef Ec LL A0c alphac N i ≠ 0 :=
    fun i => ne_of_gt (kcoef_pos Ec LL A0c alphac N i hE hL hA hN)
  have hrow : ∀ r : Fin (N + 1),
      (if r.1 = 0 then kcoef Ec LL A0c alphac N 0 * (vext v 0 - vext v 1)
       else if r.1 = N then kcoef Ec LL A0c alphac N (N - 1) * (vext v N - vext v (N - 1))
       else kcoef Ec LL A0c alphac N (r.1 - 1) * (vext v r.1 - vext v (r.1 - 1))
         + kcoef Ec LL A0c alphac N r.1 * (vext v r.1 - vext v (r.1 + 1)))
      + (if r.1 = 0 then 1e20 * vext v 0 else 0) = 0 := by
    intro r
    have h := congrFun hv r
    rw [bc_mulVec_apply, assemble_mulVec_apply Ec LL A0c alphac N hN] at h
    exact h
  have hstep : ∀ j, j < N →
      kcoef Ec LL A0c alphac N (N - 1 - j) * (vext v (N - j) - vext v (N - 1 - j)) = 0 := by
    intro j
    induction j with
    | zero =>
      intro hj
      have h := hrow ⟨N, by omega⟩
      rw [Fin.val_mk] at h
      rw [if_neg (by omega), if_pos rfl, if_neg (by omega), add_zero] at h
      have e0 : N - 0 = N := by omega
      rw [Nat.sub_zero, e0]
      exact h
    | succ j ih =>
      intro hj
      have hjN : j < N := by omega
      have hihj := ih hjN
      have h := hrow ⟨N - 1 - j, by omega⟩
      rw [Fin.val_mk] at h
      rw [if_neg (by omega), if_neg (by omega), if_neg (by omega)] at h
      rw [add_zero] at h
      have e1 : N - 1 - j - 1 = N - 1 - (j + 1) := by omega
      have e2 : N - 1 - j + 1 = N - j := by omega
      rw [e1, e2] at h
      have e3 : N - (j + 1) = N - 1 - j := by omega
      rw [e3]
      linear_combination h + hihj
  have hflat : ∀ i, i < N → vext v (i + 1) = vext v i := by
    intro i hi
    have h := hstep (N - 1 - i) (by omega)
    have e1 : N - 1 - (N - 1 - i) = i := by omega
    have e2 : N - (N - 1 - i) = i + 1 := by omega
    rw [e1, e2] at h
    have := mul_eq_zero.mp h
    rcases this with h1 | h2
    · exact absurd h1 (hk i)
    · linarith [h2]
  have hv0 : vext v 0 = 0 := by
    have h := hrow ⟨0, by omega⟩
    rw [Fin.val_mk] at h
    rw [if_pos rfl, if_pos rfl] at h
    have h1 : vext v 1 = vext v 0 := hflat 0 (by omega)
    rw [h1] at h
    have h2 : (1e20 : ℝ) * vext v 0 = 0 := by linarith [h]
    have h3 : (1e20 : ℝ) ≠ 0 := by norm_num
    exact (mul_eq_zero.mp h2).resolve_left h3
  have hall : ∀ j, j < N + 1 → vext v j = 0 := by
    intro j
    induction j with
    | zero => intro _ ; exact hv0
    | succ j ih =>
      intro hj
      rw [hflat j (by omega), ih (by omega)]
  funext r
  have h := hall r.1 r.2
  rw [vext_eq v r.1 r.2] at h
  simpa using h

/-- The boundary-conditioned stiffness matrix is invertible. -/
lemma bc_det_isUnit (Ec LL A0c alphac Fc : ℝ) (N : ℕ) (hE : 0 < Ec) (hL : 0 < LL)
    (hA : 0 < A0c) (hN : 1 ≤ N) :
    IsUnit (apply_boundary_conditions (assemble_global_stiffness_matrix Ec LL A0c alphac N)
      (forceVec Fc N)).1.det := by
  rw [isUnit_iff_ne_zero]
  intro hdet
  obtain ⟨w, hw0, hww⟩ := (Matrix.exists_mulVec_eq_zero_iff).mpr hdet
  exact hw0 (bc_kernel_trivial Ec LL A0c alphac Fc N hE hL hA hN w hww)

/-- The FEM driver returns exactly the closed-form solution of the penalized
system: `F/1e20` at the fixed node plus the accumulated element elongations. -/
lemma fem_eq_uExact (Ec LL A0c alphac Fc : ℝ) (N : ℕ) (hE : 0 < Ec) (hL : 0 < LL)
    (hA : 0 < A0c) (hN : 1 ≤ N) :
    fem_displacement_modified Ec LL A0c alphac Fc N = some (uExact Ec LL A0c alphac Fc N) := by
  unfold fem_displacement_modified np_linalg_solve
  rw [if_pos (bc_det_isUnit Ec LL A0c alphac Fc N hE hL hA hN)]
  congr 1
  have hsol := bc_system_solved Ec LL A0c alphac Fc N hE hL hA hN
  have hdet := bc_det_isUnit Ec LL A0c alphac Fc N hE hL hA hN
  calc (apply_boundary_conditions (assemble_global_stiffness_matrix Ec LL A0c alphac N)
        (forceVec Fc N)).1⁻¹ *ᵥ forceVec Fc N
      = (apply_boundary_conditions (assemble_global_stiffness_matrix Ec LL A0c alphac N)
          (forceVec Fc N)).1⁻¹ *ᵥ ((apply_boundary_conditions
            (assemble_global_stiffness_matrix Ec LL A0c alphac N)
            (forceVec Fc N)).1 *ᵥ uExact Ec LL A0c alphac Fc N) := by rw [hsol]
    _ = ((apply_boundary_conditions (assemble_global_stiffness_matrix Ec LL A0c alphac N)
          (forceVec Fc N)).1⁻¹ * (apply_boundary_conditions
            (assemble_global_stiffness_matrix Ec LL A0c alphac N)
            (forceVec Fc N)).1) *ᵥ uExact Ec LL A0c alphac Fc N := by
        rw [Matrix.mulVec_mulVec]
    _ = uExact Ec LL A0c alphac Fc N := by
        rw [Matrix.nonsing_inv_mul _ hdet, Matrix.one_mulVec]



lemma elemScatter_symm (Ec LL A0c alphac : ℝ) (N i : ℕ) (r c : Fin (N + 1)) :
    elemScatter Ec LL A0c alphac N i r c = elemScatter Ec LL A0c alphac N i c r := by
  rw [elemScatter_apply, elemScatter_apply]
  by_cases h1 : r.1 = i
  · by_cases h3 : c.1 = i
    · rw [if_pos h1, if_pos h3, if_pos h3, if_pos h1]
    · by_cases h4 : c.1 = i + 1
      · rw [if_pos h1, if_neg h3, if_pos h4, if_neg h3, if_pos h4, if_pos h1]
      · rw [if_pos h1, if_neg h3, if_neg h4, if_neg h3, if_neg h4]
  · by_cases h2 : r.1 = i + 1
    · by_cases h3 : c.1 = i
      · rw [if_neg h1, if_pos h2, if_pos h3, if_pos h3, if_neg h1, if_pos h2]
      · by_cases h4 : c.1 = i + 1
        · rw [if_neg h1, if_pos h2, if_neg h3, if_pos h4, if_neg h3, if_pos h4,
            if_neg h1, if_pos h2]
        · rw [if_neg h1, if_pos h2, if_neg h3, if_neg h4, if_neg h3, if_neg h4]
    · rw [if_neg h1, if_neg h2]
      by_cases h3 : c.1 = i
      · rw [if_pos h3, if_neg h1, if_neg h2]
      · by_cases h4 : c.1 = i + 1
        · rw [if_neg h3, if_pos h4, if_neg h1, if_neg h2]
        · rw [if_neg h3, if_neg h4]

lemma assemble_symm (Ec LL A0c alphac : ℝ) (N : ℕ) (r c : Fin (N + 1)) :
    assemble_global_stiffness_matrix Ec LL A0c alphac N r c
      = assemble_global_stiffness_matrix Ec LL A0c alphac N c r := by
  rw [assemble_global_stiffness_matrix]
  simp only [Matrix.sum_apply]
  exact Finset.sum_congr rfl (fun i _ => elemScatter_symm Ec LL A0c alphac N i r c)

lemma assemble_row_sum_zero (Ec LL A0c alphac : ℝ) (N : ℕ) (r : Fin (N + 1)) :
    (∑ c : Fin (N + 1), assemble_global_stiffness_matrix Ec LL A0c alphac N r c) = 0 := by
  have h1 : (∑ c : Fin (N + 1), assemble_global_stiffness_matrix Ec LL A0c alphac N r c)
      = ∑ i ∈ Finset.range N, ∑ c : Fin (N + 1), elemScatter Ec LL A0c alphac N i r c := by
    rw [assemble_global_stiffness_matrix]
    simp only [Matrix.sum_apply]
    rw [Finset.sum_comm]
  rw [h1]
  have hinner : ∀ i ∈ Finset.range N,
      (∑ c : Fin (N + 1), elemScatter Ec LL A0c alphac N i r c) = 0 := by
    intro i hi
    have hiN := Finset.mem_range.mp hi
    have hmv : (∑ c : Fin (N + 1), elemScatter Ec LL A0c alphac N i r c)
        = (elemScatter Ec LL A0c alphac N i *ᵥ (fun _ => (1 : ℝ))) r := by
      have : (elemScatter Ec LL A0c alphac N i *ᵥ (fun _ => (1 : ℝ))) r
          = ∑ c : Fin (N + 1), elemScatter Ec LL A0c alphac N i r c * 1 := rfl
      rw [this]
      exact Finset.sum_congr rfl (fun c _ => (mul_one _).symm)
    rw [hmv, elemScatter_mulVec_vext Ec LL A0c alphac N i hiN]
    rw [vext_eq _ (i + 1) (by omega), vext_eq _ i (by omega)]
    split_ifs <;> norm_num
  rw [Finset.sum_congr rfl hinner, Finset.sum_const_zero]

lemma assemble_det_zero (Ec LL A0c alphac : ℝ) (N : ℕ) :
    (assemble_global_stiffness_matrix Ec LL A0c alphac N).det = 0 := by
  rw [← Matrix.exists_mulVec_eq_zero_iff]
  refine ⟨fun _ => 1, ?_, ?_⟩
  · intro h
    have h0 := congrFun h ⟨0, Nat.succ_pos N⟩
    exact one_ne_zero h0
  · funext r
    have hmv : (assemble_global_stiffness_matrix Ec LL A0c alphac N *ᵥ (fun _ => (1 : ℝ))) r
        = ∑ c : Fin (N + 1), assemble_global_stiffness_matrix Ec LL A0c alphac N r c * 1 := rfl
    simp only [Pi.zero_apply]
    rw [hmv, Finset.sum_congr rfl (fun c _ => mul_one _), assemble_row_sum_zero]



/-- Entrywise closed form of the assembled matrix: diagonal entries carry
the accumulated stiffnesses of the (up to two) adjacent elements; the off
diagonals carry the negated stiffness of the connecting element. -/
lemma assemble_entry (Ec LL A0c alphac : ℝ) (N : ℕ) (r c : Fin (N + 1)) :
    assemble_global_stiffness_matrix Ec LL A0c alphac N r c =
      if r.1 = c.1 then
        (if 0 < r.1 then kcoef Ec LL A0c alphac N (r.1 - 1) else 0)
          + (if r.1 < N then kcoef Ec LL A0c alphac N r.1 else 0)
      else if c.1 = r.1 + 1 then -kcoef Ec LL A0c alphac N r.1
      else if r.1 = c.1 + 1 then -kcoef Ec LL A0c alphac N c.1
      else 0 := by
  rw [assemble_global_stiffness_matrix]
  simp only [Matrix.sum_apply]
  rw [Finset.sum_congr rfl (fun i _ => elemScatter_apply Ec LL A0c alphac N i r c)]
  have hrle : r.1 < N + 1 := r.2
  have hcle : c.1 < N + 1 := c.2
  by_cases hdiag : r.1 = c.1
  · rw [if_pos hdiag]
    by_cases hr0 : r.1 = 0
    · have step : ∀ i ∈ Finset.range N,
          (if r.1 = i then
            (if c.1 = i then kcoef Ec LL A0c alphac N i
             else if c.1 = i + 1 then -kcoef Ec LL A0c alphac N i else 0)
          else if r.1 = i + 1 then
            (if c.1 = i then -kcoef Ec LL A0c alphac N i
             else if c.1 = i + 1 then kcoef Ec LL A0c alphac N i else 0)
          else 0) =
          (if i = r.1 then kcoef Ec LL A0c alphac N i else 0) := by
        intro i hi
        have hiN := Finset.mem_range.mp hi
        by_cases h0 : i = r.1
        · subst h0
          rw [if_pos rfl, if_pos hdiag.symm, if_pos rfl]
        · rw [if_neg (by omega), if_neg (by omega), if_neg h0]
      rw [Finset.sum_congr rfl step, Finset.sum_ite_eq' (Finset.range N) r.1
        (fun i => kcoef Ec LL A0c alphac N i)]
      simp only [Finset.mem_range]
      rw [if_neg (show ¬ 0 < r.1 by omega), zero_add]
    · have step : ∀ i ∈ Finset.range N,
          (if r.1 = i then
            (if c.1 = i then kcoef Ec LL A0c alphac N i
             else if c.1 = i + 1 then -kcoef Ec LL A0c alphac N i else 0)
          else if r.1 = i + 1 then
            (if c.1 = i then -kcoef Ec LL A0c alphac N i
             else if c.1 = i + 1 then kcoef Ec LL A0c alphac N i else 0)
          else 0) =
          (if i = r.1 then kcoef Ec LL A0c alphac N i else 0)
            + (if i = r.1 - 1 then kcoef Ec LL A0c alphac N i else 0) := by
        intro i hi
        have hiN := Finset.mem_range.mp hi
        by_cases h0 : i = r.1
        · subst h0
          rw [if_pos rfl, if_pos hdiag.symm, if_pos rfl, if_neg (by omega), add_zero]
        · by_cases h1 : i = r.1 - 1
          · subst h1
            rw [if_neg (by omega), if_pos (by omega), if_neg (by omega), if_pos (by omega),
              if_neg (by omega), if_pos rfl, zero_add]
          · rw [if_neg (by omega), if_neg (by omega), if_neg h0, if_neg h1, add_zero]
      rw [Finset.sum_congr rfl step, Finset.sum_add_distrib,
        Finset.sum_ite_eq' (Finset.range N) r.1 (fun i => kcoef Ec LL A0c alphac N i),
        Finset.sum_ite_eq' (Finset.range N) (r.1 - 1) (fun i => kcoef Ec LL A0c alphac N i)]
      simp only [Finset.mem_range]
      rw [if_pos (show r.1 - 1 < N by omega), if_pos (show 0 < r.1 by omega)]
      exact add_comm _ _
  · rw [if_neg hdiag]
    by_cases hsup : c.1 = r.1 + 1
    · rw [if_pos hsup]
      have step : ∀ i ∈ Finset.range N,
          (if r.1 = i then
            (if c.1 = i then kcoef Ec LL A0c alphac N i
             else if c.1 = i + 1 then -kcoef Ec LL A0c alphac N i else 0)
          else if r.1 = i + 1 then
            (if c.1 = i then -kcoef Ec LL A0c alphac N i
             else if c.1 = i + 1 then kcoef Ec LL A0c alphac N i else 0)
          else 0) =
          (if i = r.1 then -kcoef Ec LL A0c alphac N i else 0) := by
        intro i hi
        have hiN := Finset.mem_range.mp hi
        by_cases h0 : i = r.1
        · subst h0
          rw [if_pos rfl, if_neg (by omega), if_pos (by omega), if_pos rfl]
        · by_cases h2 : r.1 = i + 1
          · rw [if_neg (by omega), if_pos h2, if_neg (by omega), if_neg (by omega), if_neg h0]
          · rw [if_neg (by omega), if_neg h2, if_neg h0]
      rw [Finset.sum_congr rfl step, Finset.sum_ite_eq' (Finset.range N) r.1
        (fun i => -kcoef Ec LL A0c alphac N i)]
      simp only [Finset.mem_range]
      rw [if_pos (show r.1 < N by omega)]
    · by_cases hsub : r.1 = c.1 + 1
      · rw [if_neg hsup, if_pos hsub]
        have step : ∀ i ∈ Finset.range N,
            (if r.1 = i then
              (if c.1 = i then kcoef Ec LL A0c alphac N i
               else if c.1 = i + 1 then -kcoef Ec LL A0c alphac N i else 0)
            else if r.1 = i + 1 then
              (if c.1 = i then -kcoef Ec LL A0c alphac N i
               else if c.1 = i + 1 then kcoef Ec LL A0c alphac N i else 0)
            else 0) =
            (if i = c.1 then -kcoef Ec LL A0c alphac N i else 0) := by
          intro i hi
          have hiN := Finset.mem_range.mp hi
          by_cases h0 : i = c.1
          · subst h0
            rw [if_neg (by omega), if_pos (by omega), if_pos rfl, if_pos rfl]
          · by_cases h2 : r.1 = i
            · rw [if_pos h2, if_neg (by omega), if_neg (by omega), if_neg h0]
            · rw [if_neg h2, if_neg (by omega), if_neg h0]
        rw [Finset.sum_congr rfl step, Finset.sum_ite_eq' (Finset.range N) c.1
          (fun i => -kcoef Ec LL A0c alphac N i)]
        simp only [Finset.mem_range]
        rw [if_pos (show c.1 < N by omega)]
      · rw [if_neg hsup, if_neg hsub]
        have step : ∀ i ∈ Finset.range N,
            (if r.1 = i then
              (if c.1 = i then kcoef Ec LL A0c alphac N i
               else if c.1 = i + 1 then -kcoef Ec LL A0c alphac N i else 0)
            else if r.1 = i + 1 then
              (if c.1 = i then -kcoef Ec LL A0c alphac N i
               else if c.1 = i + 1 then kcoef Ec LL A0c alphac N i else 0)
            else 0) = 0 := by
          intro i hi
          by_cases h2 : r.1 = i
          · rw [if_pos h2, if_neg (by omega), if_neg (by omega)]
          · by_cases h3 : r.1 = i + 1
            · rw [if_neg h2, if_pos h3, if_neg (by omega), if_neg (by omega)]
            · rw [if_neg h2, if_neg h3]
        rw [Finset.sum_congr rfl step, Finset.sum_const_zero]



lemma E_pos : (0 : ℝ) < E := by unfold E ; norm_num

lemma L_pos : (0 : ℝ) < L := by unfold L ; norm_num

lemma A0_pos : (0 : ℝ) < A0 := by unfold A0 ; norm_num

lemma F_pos : (0 : ℝ) < F := by unfold F ; norm_num

/-- C1: the post-processor divides the displacement difference by `dx` twice.
At `E = 1`, `dx = 1/2`, `u = [0, 1]`, `N = 1` the code returns
`(E/dx) * ((u[1]-u[0])/dx) = 4`, while `E * (u[1]-u[0]) / dx = 2`. -/
theorem C1_stress_formula_counterexample :
    stress 1 1 (fun j => if j.1 = 0 then 0 else 1) (1 / 2) ⟨0, Nat.one_pos⟩ = 4 ∧
      (1 : ℝ) * ((1 : ℝ) - 0) / (1 / 2) = 2 ∧ (4 : ℝ) ≠ 2 := by
  refine ⟨?_, by norm_num, by norm_num⟩
  unfold stress
  norm_num [Fin.succ, Fin.castSucc, Fin.castAdd, Fin.castLE]

/-- C2: the source has no branch for taper rate 0. Evaluating the formula at
`alpha = 0` divides by zero: over ℝ (where `x / 0 = 0`) the result is `0`;
in IEEE arithmetic it is `inf * 0 = NaN`. Either way it differs from the
required limit value `F*x/(E*A0) = 5e-7` at `x = 1`. -/
theorem C2_alpha_zero_counterexample :
    analytical_displacement_modified 1000 (200e9) (1 / 100) 0 1 = 0 ∧
      (1000 : ℝ) * 1 / (200e9 * (1 / 100)) = 5e-7 ∧ (0 : ℝ) ≠ 5e-7 := by
  refine ⟨?_, by norm_num, by norm_num⟩
  unfold analytical_displacement_modified
  norm_num

/-- C5: the boundary-condition applicator adds the penalty `1e20` (≥ 1e20) to
entry (0,0) of the stiffness matrix and changes nothing else: every other
stiffness entry and the whole force vector are returned unchanged. -/
theorem C5_bc_frame (n : ℕ) (K : Matrix (Fin (n + 1)) (Fin (n + 1)) ℝ)
    (f : Fin (n + 1) → ℝ) (r c : Fin (n + 1)) (hrc : ¬(r.1 = 0 ∧ c.1 = 0)) :
    (apply_boundary_conditions K f).1 0 0 = K 0 0 + 1e20 ∧
      (apply_boundary_conditions K f).1 r c = K r c ∧
      (apply_boundary_conditions K f).2 = f := by
  refine ⟨?_, ?_, rfl⟩
  · simp only [apply_boundary_conditions, Matrix.of_apply]
    have h00 : ((0 : Fin (n + 1)).1 = 0 ∧ (0 : Fin (n + 1)).1 = 0) := by simp
    rw [if_pos h00]
  · simp only [apply_boundary_conditions, Matrix.of_apply]
    rw [if_neg hrc]

theorem C5_bc_frame_witness :
    (apply_boundary_conditions (0 : Matrix (Fin 2) (Fin 2) ℝ) (fun _ => (0 : ℝ))).1 0 0
        = (0 : Matrix (Fin 2) (Fin 2) ℝ) 0 0 + 1e20 ∧
      (apply_boundary_conditions (0 : Matrix (Fin 2) (Fin 2) ℝ) (fun _ => (0 : ℝ))).1 1 0
        = (0 : Matrix (Fin 2) (Fin 2) ℝ) 1 0 ∧
      (apply_boundary_conditions (0 : Matrix (Fin 2) (Fin 2) ℝ) (fun _ => (0 : ℝ))).2
        = fun _ => (0 : ℝ) :=
  C5_bc_frame 1 0 (fun _ => (0 : ℝ)) 1 0 (by decide)

/-- C9: `fem_displacement_modified` is a pure function of the model
parameters and the element count: two invocations with identical inputs
return identical displacement fields. -/
theorem C9_deterministic (e1 l1 a1 t1 f1 e2 l2 a2 t2 f2 : ℝ) (N : ℕ)
    (he : e1 = e2) (hl : l1 = l2) (ha : a1 = a2) (ht : t1 = t2) (hf : f1 = f2) :
    fem_displacement_modified e1 l1 a1 t1 f1 N = fem_displacement_modified e2 l2 a2 t2 f2 N := by
  subst he hl ha ht hf
  rfl

theorem C9_deterministic_witness :
    fem_displacement_modified 1 1 1 1 1 3 = fem_displacement_modified 1 1 1 1 1 3 :=
  C9_deterministic 1 1 1 1 1 1 1 1 1 1 3 rfl rfl rfl rfl rfl



lemma uExactNat_succ_diff (Ec LL A0c alphac Fc : ℝ) (N j : ℕ) :
    uExactNat Ec LL A0c alphac Fc N (j + 1) - uExactNat Ec LL A0c alphac Fc N j
      = Fc / kcoef Ec LL A0c alphac N j := by
  unfold uExactNat
  rw [Finset.sum_range_succ]
  ring

/-- C6: the modelled solver surfaces a failure (`none`, i.e. a raised
`LinAlgError`) on a singular matrix instead of returning garbage, and for
the boundary-conditioned FEM system with `N ≥ 1` (at the source's module
constants) that failure branch is unreachable. -/
theorem C6_singular_guard (N : ℕ) (hN : 1 ≤ N)
    (M : Matrix (Fin (N + 1)) (Fin (N + 1)) ℝ) (g : Fin (N + 1) → ℝ)
    (hM : ¬ IsUnit M.det) :
    np_linalg_solve M g = none ∧
      fem_displacement_modified E L A0 alpha_modified F N ≠ none := by
  constructor
  · unfold np_linalg_solve
    rw [if_neg hM]
  · rw [fem_eq_uExact E L A0 alpha_modified F N E_pos L_pos A0_pos hN]
    exact Option.some_ne_none _

theorem C6_singular_guard_witness :
    np_linalg_solve (0 : Matrix (Fin 2) (Fin 2) ℝ) (fun _ => (0 : ℝ)) = none ∧
      fem_displacement_modified E L A0 alpha_modified F 1 ≠ none :=
  C6_singular_guard 1 (by norm_num) 0 (fun _ => (0 : ℝ))
    (by rw [Matrix.det_zero ⟨0⟩] ; exact not_isUnit_zero)

/-- C7: for nonnegative taper rate, positive force and any mesh with
`N ≥ 1` elements (and physically positive length, modulus and base area),
the computed displacement field is non-decreasing in the node index. -/
theorem C7_monotone (Ec LL A0c alphac Fc : ℝ) (N : ℕ) (hE : 0 < Ec) (hL : 0 < LL)
    (hA : 0 < A0c) (ht : 0 ≤ alphac) (hF : 0 < Fc) (hN : 1 ≤ N)
    (u : Fin (N + 1) → ℝ)
    (hu : fem_displacement_modified Ec LL A0c alphac Fc N = some u) (i : Fin N) :
    u i.castSucc ≤ u i.succ := by
  rw [fem_eq_uExact Ec LL A0c alphac Fc N hE hL hA hN] at hu
  obtain rfl : uExact Ec LL A0c alphac Fc N = u := Option.some.inj hu
  have e1 : uExact Ec LL A0c alphac Fc N i.castSucc
      = uExactNat Ec LL A0c alphac Fc N i.1 := rfl
  have e2 : uExact Ec LL A0c alphac Fc N i.succ
      = uExactNat Ec LL A0c alphac Fc N (i.1 + 1) := rfl
  rw [e1, e2]
  have hd := uExactNat_succ_diff Ec LL A0c alphac Fc N i.1
  have hpos : 0 < Fc / kcoef Ec LL A0c alphac N i.1 :=
    div_pos hF (kcoef_pos Ec LL A0c alphac N i.1 hE hL hA hN)
  linarith [hd, hpos]

theorem C7_monotone_witness :
    uExact 1 1 1 0 1 1 (Fin.castSucc 0) ≤ uExact 1 1 1 0 1 1 (Fin.succ 0) :=
  C7_monotone 1 1 1 0 1 1 (by norm_num) (by norm_num) (by norm_num) (by norm_num)
    (by norm_num) (by norm_num) (uExact 1 1 1 0 1 1)
    (fem_eq_uExact 1 1 1 0 1 1 (by norm_num) (by norm_num) (by norm_num) (by norm_num)) 0

/-- C8: for a positive end load and any mesh with `N ≥ 1` elements (and
positive length, modulus and base area), every entry of the stress field
computed from the FEM displacement field is positive. -/
theorem C8_stress_positive (Ec LL A0c alphac Fc : ℝ) (N : ℕ) (hE : 0 < Ec)
    (hL : 0 < LL) (hA : 0 < A0c) (hF : 0 < Fc) (hN : 1 ≤ N)
    (u : Fin (N + 1) → ℝ)
    (hu : fem_displacement_modified Ec LL A0c alphac Fc N = some u) (i : Fin N) :
    0 < stress Ec N u (LL / N) i := by
  rw [fem_eq_uExact Ec LL A0c alphac Fc N hE hL hA hN] at hu
  obtain rfl : uExact Ec LL A0c alphac Fc N = u := Option.some.inj hu
  have hNR : (0 : ℝ) < (N : ℝ) := by exact_mod_cast hN
  have hdx : (0 : ℝ) < LL / N := div_pos hL hNR
  have hd := uExactNat_succ_diff Ec LL A0c alphac Fc N i.1
  have hpos : 0 < Fc / kcoef Ec LL A0c alphac N i.1 :=
    div_pos hF (kcoef_pos Ec LL A0c alphac N i.1 hE hL hA hN)
  have hdiffpos : 0 < uExact Ec LL A0c alphac Fc N i.succ
      - uExact Ec LL A0c alphac Fc N i.castSucc := by
    have e1 : uExact Ec LL A0c alphac Fc N i.castSucc
        = uExactNat Ec LL A0c alphac Fc N i.1 := rfl
    have e2 : uExact Ec LL A0c alphac Fc N i.succ
        = uExactNat Ec LL A0c alphac Fc N (i.1 + 1) := rfl
    rw [e1, e2]
    linarith [hd, hpos]
  unfold stress
  exact mul_pos (div_pos hE hdx) (div_pos hdiffpos hdx)

theorem C8_stress_positive_witness :
    0 < stress 1 1 (uExact 1 1 1 0 1 1) (1 / ((1 : ℕ) : ℝ)) 0 :=
  C8_stress_positive 1 1 1 0 1 1 (by norm_num) (by norm_num) (by norm_num) (by norm_num)
    (by norm_num) (uExact 1 1 1 0 1 1)
    (fem_eq_uExact 1 1 1 0 1 1 (by norm_num) (by norm_num) (by norm_num) (by norm_num)) 0



lemma xmid_le_one (N i : ℕ) (hN : 1 ≤ N) (hi : i < N) : xmid L N i ≤ 1 := by
  unfold xmid L
  have hNR : (1 : ℝ) ≤ (N : ℝ) := by exact_mod_cast hN
  have hNpos : (0 : ℝ) < (N : ℝ) := by linarith
  have hiR : (i : ℝ) + 1 ≤ (N : ℝ) := by exact_mod_cast hi
  have key : (0.5 : ℝ) * ((i : ℝ) * (1.0 / N) + ((i : ℝ) + 1) * (1.0 / N))
      = (2 * (i : ℝ) + 1) / (2 * N) := by
    field_simp
    ring
  rw [key, div_le_one (by linarith)]
  linarith

lemma kcoef_le_const (N i : ℕ) (hN : 1 ≤ N) (hi : i < N) :
    kcoef E L A0 alpha_modified N i ≤ 6e9 * N := by
  have hx := xmid_le_one N i hN hi
  have hexp : Real.exp (alpha_modified * xmid L N i) ≤ 3 := by
    unfold alpha_modified
    rw [one_mul]
    calc Real.exp (xmid L N i) ≤ Real.exp 1 := Real.exp_le_exp.mpr hx
      _ ≤ 3 := by linarith [Real.exp_one_lt_d9]
  have hNR : (1 : ℝ) ≤ (N : ℝ) := by exact_mod_cast hN
  have hNpos : (0 : ℝ) < (N : ℝ) := by linarith
  unfold kcoef area_modified E A0
  rw [div_le_iff₀ (div_pos L_pos hNpos)]
  have hid : (6e9 : ℝ) * (N : ℝ) * (L / (N : ℝ)) = 6e9 * L := by
    field_simp
    ring
  rw [hid]
  have hL1 : L = 1 := by unfold L ; norm_num
  rw [hL1] at hexp ⊢
  linarith [hexp]

lemma sum_terms_lower (N : ℕ) (hN : 1 ≤ N) :
    (1000 : ℝ) / 6e9 ≤ ∑ i ∈ Finset.range N, F / kcoef E L A0 alpha_modified N i := by
  have hNpos : (0 : ℝ) < (N : ℝ) := by exact_mod_cast hN
  have hterm : ∀ i ∈ Finset.range N,
      (1000 : ℝ) / (6e9 * N) ≤ F / kcoef E L A0 alpha_modified N i := by
    intro i hi
    have hkpos := kcoef_pos E L A0 alpha_modified N i E_pos L_pos A0_pos hN
    have hkle := kcoef_le_const N i hN (Finset.mem_range.mp hi)
    have hF1 : F = (1000 : ℝ) := rfl
    rw [hF1]
    gcongr
  have hsum := Finset.sum_le_sum hterm
  rw [Finset.sum_const, Finset.card_range, nsmul_eq_mul] at hsum
  have hid : (N : ℝ) * ((1000 : ℝ) / (6e9 * N)) = 1000 / 6e9 := by
    field_simp
    ring
  rw [hid] at hsum
  exact hsum

/-- C3: for every `N ≥ 1`, the FEM driver (at the source's module constants)
returns a displacement field of `N+1` nodal values whose fixed-node entry is
zero within the penalty-induced tolerance: `|u 0| < 1e-6 * |u N|`. -/
theorem C3_fixed_node_tolerance (N : ℕ) (hN : 1 ≤ N) :
    ∃ u : Fin (N + 1) → ℝ,
      fem_displacement_modified E L A0 alpha_modified F N = some u ∧
        |u ⟨0, Nat.succ_pos N⟩| < 1e-6 * |u ⟨N, Nat.lt_succ_self N⟩| := by
  refine ⟨uExact E L A0 alpha_modified F N,
    fem_eq_uExact E L A0 alpha_modified F N E_pos L_pos A0_pos hN, ?_⟩
  have hF1 : F = (1000 : ℝ) := rfl
  have hu0 : uExact E L A0 alpha_modified F N ⟨0, Nat.succ_pos N⟩ = F / 1e20 := by
    show uExactNat E L A0 alpha_modified F N 0 = F / 1e20
    unfold uExactNat
    rw [Finset.sum_range_zero, add_zero]
  have huN : uExact E L A0 alpha_modified F N ⟨N, Nat.lt_succ_self N⟩
      = F / 1e20 + ∑ i ∈ Finset.range N, F / kcoef E L A0 alpha_modified N i := rfl
  have hsum := sum_terms_lower N hN
  rw [hu0, huN, hF1]
  rw [hF1] at hsum
  have hpos0 : (0 : ℝ) < 1000 / 1e20 := by norm_num
  have hposS : (0 : ℝ) < (1000 : ℝ) / 6e9 := by norm_num
  have hposN : (0 : ℝ) < 1000 / 1e20
      + ∑ i ∈ Finset.range N, (1000 : ℝ) / kcoef E L A0 alpha_modified N i := by
    linarith
  rw [abs_of_pos hpos0, abs_of_pos hposN]
  linarith

theorem C3_fixed_node_tolerance_witness :
    ∃ u : Fin 2 → ℝ,
      fem_displacement_modified E L A0 alpha_modified F 1 = some u ∧
        |u ⟨0, Nat.succ_pos 1⟩| < 1e-6 * |u ⟨1, Nat.lt_succ_self 1⟩| :=
  C3_fixed_node_tolerance 1 (by norm_num)



/-- C4: the global assembler starts from the zero matrix and accumulates the
scattered `(E * area(x_mid) / dx) * [[1,-1],[-1,1]]` blocks of all elements:
entrywise, a diagonal entry is the sum of the stiffness coefficients of its
(up to two) adjacent elements — summed, not overwritten, at shared nodes —
the off-diagonals are the negated connecting-element coefficients, and the
element coefficient is evaluated at the midpoint `(i + 1/2)*dx`. The force
vector is zero everywhere except `force[N] = appliedForce`. -/
theorem C4_assembler (Ec LL A0c alphac Fc : ℝ) (N i : ℕ) (r c rr : Fin (N + 1))
    (hrr : rr.1 ≠ N) :
    kcoef Ec LL A0c alphac N i
        = Ec * area_modified A0c alphac (((i : ℝ) + 1 / 2) * (LL / N)) / (LL / N) ∧
      assemble_global_stiffness_matrix Ec LL A0c alphac N r c =
        (if r.1 = c.1 then
          (if 0 < r.1 then kcoef Ec LL A0c alphac N (r.1 - 1) else 0)
            + (if r.1 < N then kcoef Ec LL A0c alphac N r.1 else 0)
        else if c.1 = r.1 + 1 then -kcoef Ec LL A0c alphac N r.1
        else if r.1 = c.1 + 1 then -kcoef Ec LL A0c alphac N c.1
        else 0) ∧
      forceVec Fc N ⟨N, Nat.lt_succ_self N⟩ = Fc ∧
      forceVec Fc N rr = 0 := by
  refine ⟨?_, assemble_entry Ec LL A0c alphac N r c, ?_, ?_⟩
  · unfold kcoef
    have hx : xmid LL N i = ((i : ℝ) + 1 / 2) * (LL / N) := by
      unfold xmid
      ring
    rw [hx]
  · unfold forceVec
    exact if_pos rfl
  · unfold forceVec
    exact if_neg hrr

theorem C4_assembler_witness :
    forceVec (5 : ℝ) 1 ⟨0, Nat.succ_pos 1⟩ = 0 :=
  (C4_assembler 1 1 1 0 5 1 0 0 0 ⟨0, Nat.succ_pos 1⟩ (by decide)).2.2.2

/-- C10: before boundary conditions, the assembled stiffness matrix is
symmetric and every row sums to zero, so it is singular (the constant vector
spans a rigid-body mode and `det = 0`); after the penalty is added at (0,0)
the matrix is still symmetric. -/
theorem C10_stiffness_invariants (Ec LL A0c alphac Fc : ℝ) (N : ℕ) (r c : Fin (N + 1)) :
    assemble_global_stiffness_matrix Ec LL A0c alphac N r c
        = assemble_global_stiffness_matrix Ec LL A0c alphac N c r ∧
      (∑ j : Fin (N + 1), assemble_global_stiffness_matrix Ec LL A0c alphac N r j) = 0 ∧
      (assemble_global_stiffness_matrix Ec LL A0c alphac N).det = 0 ∧
      (apply_boundary_conditions (assemble_global_stiffness_matrix Ec LL A0c alphac N)
          (forceVec Fc N)).1 r c
        = (apply_boundary_conditions (assemble_global_stiffness_matrix Ec LL A0c alphac N)
            (forceVec Fc N)).1 c r := by
  refine ⟨assemble_symm Ec LL A0c alphac N r c, assemble_row_sum_zero Ec LL A0c alphac N r,
    assemble_det_zero Ec LL A0c alphac N, ?_⟩
  simp only [apply_boundary_conditions, Matrix.of_apply]
  by_cases h : r.1 = 0 ∧ c.1 = 0
  · rw [if_pos h, if_pos (And.intro h.2 h.1), assemble_symm Ec LL A0c alphac N r c]
  · rw [if_neg h, if_neg (fun hh => h (And.intro hh.2 hh.1)),
      assemble_symm Ec LL A0c alphac N r c]

end TaperedRod
